import Mathlib

/-!
Verification development for the typed-config-parser repository
(`src/parser.ts`, `src/stringify.ts`, `src/_utils.ts`, `src/_internals/types.ts`).

The TypeScript source is shallowly embedded below.  JavaScript strings are
modeled as Lean `String` (a packed `List Char`); all indexing is by character,
which coincides with the source on the inputs considered (no surrogate pairs).
JavaScript numbers are modeled as exact rationals plus a NaN marker
(`JSNum`); every number the evaluator produces has a decimal denominator, so
no rounding questions arise for the values appearing in this development.
JavaScript objects built by the parser are modeled as insertion-ordered
association lists: the parser rejects every key that evaluates to a number,
hence no reachable object key is an integer-like key, and `for..in`
enumeration order is exactly insertion order for these objects.
-/

/-- Character set of the ECMAScript `\s` class restricted to ASCII (space,
tab, LF, VT, FF, CR).  Both `String.prototype.trim` and the `/\s+/` tests in
the parser use this class; the non-ASCII members are never exercised here. -/
def isWsJS (c : Char) : Bool :=
  c = ' ' || c = '\t' || c = '\n' || c = '\x0b' || c = '\x0c' || c = '\r'

/-- `String.prototype.trim`: drop `\s` characters from both ends. -/
def trimJS (s : String) : String :=
  String.mk (((s.data.dropWhile isWsJS).reverse.dropWhile isWsJS).reverse)

/-- JavaScript `s.slice(0, n)` for `0 ≤ n` (character counting). -/
def strTake (s : String) (n : Nat) : String :=
  String.mk (s.data.take n)

/-- JavaScript `s.slice(n)` for `0 ≤ n`. -/
def strDrop (s : String) (n : Nat) : String :=
  String.mk (s.data.drop n)

/-- Drop the last `n` characters, as in JavaScript `s.slice(0, -n)`. -/
def strDropRight (s : String) (n : Nat) : String :=
  String.mk (s.data.take (s.data.length - n))

/-- The one-character string a JavaScript `split('')` element denotes. -/
def charStr (c : Char) : String :=
  String.mk [c]

/-- JavaScript `s.includes(c)` / `s.indexOf(c) > -1` for a single character. -/
def containsChar (s : String) (c : Char) : Bool :=
  s.data.contains c

/-- Helper for `indexOfSub`: first index at or after `i` where `pat` is a
prefix of the remaining characters. -/
def idxAux (pat : List Char) : List Char → Nat → Option Nat
  | [], i => if pat.isPrefixOf ([] : List Char) then some i else none
  | c :: rest, i =>
    if pat.isPrefixOf (c :: rest) then some i else idxAux pat rest (i + 1)

/-- JavaScript `s.indexOf(pat)`, returning `none` for `-1`. -/
def indexOfSub (s pat : String) : Option Nat :=
  idxAux pat.data s.data 0

/-- JavaScript `s.indexOf(pat) > -1`. -/
def containsSub (s pat : String) : Bool :=
  (indexOfSub s pat).isSome

/-- JavaScript `s.startsWith(p)`. -/
def startsWithJS (s p : String) : Bool :=
  p.data.isPrefixOf s.data

/-- JavaScript `s.endsWith(p)`. -/
def endsWithJS (s p : String) : Bool :=
  p.data.isSuffixOf s.data

/-- Helper for `splitOnJS`: standard splitter on a non-empty separator,
accumulating the current piece in reverse.  The fuel argument (instantiated
with the input length, which bounds the number of steps) keeps the recursion
structural; the fuel-exhausted case is unreachable. -/
def splitAux (sep : List Char) : Nat → List Char → List Char → List (List Char)
  | _, [], acc => [acc.reverse]
  | 0, l, acc => [acc.reverse ++ l]
  | fuel + 1, c :: rest, acc =>
    if sep.isPrefixOf (c :: rest) && !sep.isEmpty then
      acc.reverse :: splitAux sep fuel (rest.drop (sep.length - 1)) []
    else
      splitAux sep fuel rest (c :: acc)

/-- JavaScript `String.prototype.split` on a non-empty string separator (all
call sites in the source pass `"="`, `","`, `"."`, `"\n"` or `"\r\n"`). -/
def splitOnJS (s sep : String) : List String :=
  if sep.data = [] then [s] else (splitAux sep.data s.data.length s.data []).map String.mk

/-- Decimal digit characters rendered by JavaScript number-to-string for the
small indices used as array keys. -/
def digitChar (d : Nat) : Char :=
  Char.ofNat (48 + d)

/-- Helper for `natToStr` with an explicit fuel argument. -/
def natToStrAux : Nat → Nat → List Char
  | 0, _ => []
  | fuel + 1, n =>
    if n < 10 then [digitChar n]
    else natToStrAux fuel (n / 10) ++ [digitChar (n % 10)]

/-- Decimal rendering of a natural number (JavaScript `String(n)`). -/
def natToStr (n : Nat) : String :=
  String.mk (natToStrAux (n + 1) n)

/-- Decimal rendering of an integer. -/
def intToStr (i : Int) : String :=
  if i < 0 then "-" ++ natToStr i.natAbs else natToStr i.natAbs

/-- Numeric value of a digit character under JavaScript `parseInt` (digits,
then letters with `a`/`A` = 10; other characters get a sentinel ≥ 36 so that
they are invalid in every radix). -/
def jsDigitVal (c : Char) : Nat :=
  if c.isDigit then c.toNat - 48
  else if 'a' ≤ c && c ≤ 'z' then c.toNat - 87
  else if 'A' ≤ c && c ≤ 'Z' then c.toNat - 55
  else 99

/-- Natural value of a list of decimal digit characters. -/
def natOfDigits (l : List Char) : Nat :=
  l.foldl (fun a c => a * 10 + (c.toNat - 48)) 0

/-- A JavaScript number: NaN or an exact value.  Every number produced by the
embedded code has a decimal denominator, where the double rounding of the
source is exact for the magnitudes exercised here. -/
inductive JSNum where
  | nan : JSNum
  | q : ℚ → JSNum
deriving DecidableEq

/-- ECMAScript `parseInt(s, radix)` for the sign-free, whitespace-free inputs
the evaluator passes it: the `0x`/`0X` prefix is stripped only for radix 16,
then the maximal valid-digit prefix is parsed; no valid digit gives NaN. -/
def parseIntJS (radix : Nat) (s : String) : JSNum :=
  let s1 := if radix = 16 && (startsWithJS s "0x" || startsWithJS s "0X") then strDrop s 2 else s
  let ds := s1.data.takeWhile (fun c => jsDigitVal c < radix)
  if ds = [] then .nan
  else .q ((ds.foldl (fun a c => a * radix + jsDigitVal c) 0 : Nat) : ℚ)

/-- The test of `/^[0-9]*\.?[0-9]*$/`: zero or more digits, an optional
single dot, zero or more digits. -/
def decRe : List Char → Bool
  | [] => true
  | c :: r => if c.isDigit then decRe r else c = '.' && r.all Char.isDigit

/-- ECMAScript `Number(s)` restricted to strings matching `decRe` (the only
strings the source applies it to): `""` is 0, `"."` is NaN, otherwise the
integer part plus the fractional part scaled by a power of ten. -/
def decValue (l : List Char) : JSNum :=
  match l with
  | [] => .q 0
  | _ =>
    let intDs := l.takeWhile Char.isDigit
    match l.drop intDs.length with
    | [] => .q ((natOfDigits intDs : Nat) : ℚ)
    | _ :: frac =>
      if intDs = [] && frac = [] then .nan
      else .q ((natOfDigits intDs : Nat) + ((natOfDigits frac : Nat) : ℚ) / 10 ^ frac.length)

/-- Character class `[0-9A-Fa-f]`. -/
def isHexDigitJS (c : Char) : Bool :=
  c.isDigit || ('a' ≤ c && c ≤ 'f') || ('A' ≤ c && c ≤ 'F')

/-- The test of `/^0x[0-9A-Fa-f]*$/`. -/
def hexRe (s : String) : Bool :=
  startsWithJS s "0x" && (s.data.drop 2).all isHexDigitJS

/-- The test of `/^0b[01]*$/`. -/
def binRe (s : String) : Bool :=
  startsWithJS s "0b" && (s.data.drop 2).all (fun c => c = '0' || c = '1')

/-- The test of `/^0o[0-7]*$/`. -/
def octRe (s : String) : Bool :=
  startsWithJS s "0o" && (s.data.drop 2).all (fun c => '0' ≤ c && c ≤ '7')

/-- The typed value produced by `Parser.#eval` (`parser.ts:379-414`): the
`type` tag together with the `value` payload. -/
inductive TypedValue where
  | num : JSNum → TypedValue
  | bool : Bool → TypedValue
  | arr : List String → TypedValue
  | str : String → TypedValue
deriving DecidableEq

/-- Whether the `type` tag is `'number'`. -/
def TypedValue.isNumber : TypedValue → Bool
  | .num _ => true
  | _ => false

/-- `Parser.#eval` (`parser.ts:379-414`): the Value Evaluator.  Pattern tests
in source order, first match winning; the bracket case strips the outer
brackets, splits on `,` and trims each element without re-evaluating. -/
def evalJS (input : String) : TypedValue :=
  if decRe input.data then .num (decValue input.data)
  else if input = "true" || input = "false" then .bool (input = "true")
  else if startsWithJS input "[" && endsWithJS input "]" then
    .arr ((splitOnJS (strDropRight (strDrop input 1) 1) ",").map trimJS)
  else if hexRe input then .num (parseIntJS 16 input)
  else if binRe input then .num (parseIntJS 2 input)
  else if octRe input then .num (parseIntJS 8 input)
  else .str input

/-! ## Line Normalizer — `Parser.read` (`parser.ts:61-115`) -/

/-- The `hasComments` test of `Parser.read` (`parser.ts:73` and `parser.ts:87`):
`line.split('').some(char => commentWith.includes(char))` — true when some
single character of the line is itself one of the configured markers.  Note
this is a per-character test: a multi-character marker never satisfies it. -/
def hasComments (markers : List String) (line : String) : Bool :=
  line.data.any (fun c => markers.contains (charStr c))

/-- The `eachComment` loop of `Parser.read` (`parser.ts:80-102`): walk the
markers in configured order, truncating the current line at the first index
of each marker found; as soon as the truncated remainder passes the
per-character marker test, keep it when its trim is non-blank (the loop
breaks there).  Returns the kept (untrimmed) remainder, or `none` when the
line is dropped. -/
def stripGo (markers : List String) : List String → String → Option String
  | [], _ => none
  | m :: ms, cur =>
    match indexOfSub cur m with
    | none => stripGo markers ms cur
    | some i =>
      let cur2 := strTake cur i
      if hasComments markers cur2 then stripGo markers ms cur2
      else if trimJS cur2 = "" then none else some cur2

/-- One line of the `eachLine` loop of `Parser.read` (`parser.ts:70-107`):
a line without marker characters is kept trimmed when non-blank; otherwise
the comment loop runs.  Returns the string pushed onto `clearLines`. -/
def normalizeLineRaw (markers : List String) (line : String) : Option String :=
  if !hasComments markers line && trimJS line ≠ "" then some (trimJS line)
  else stripGo markers markers line

/-- A kept line after the final `clearLines.map(item => item.trim())` of
`Parser.read` (`parser.ts:111`). -/
def codeNormalizeLine (markers : List String) (line : String) : Option String :=
  (normalizeLineRaw markers line).map trimJS

/-- `file.indexOf('\r\n') > -1` (`parser.ts:63`). -/
def detectCRLF (file : String) : Bool :=
  containsSub file "\r\n"

/-- End-of-line detection and split of `Parser.read` (`parser.ts:63-65`). -/
def splitLines (file : String) : List String :=
  splitOnJS file (if detectCRLF file then "\r\n" else "\n")

/-- The normalized line list a `Parser` instance holds: every raw line run
through the comment stripper, dropped lines removed, and a final trim
(`parser.ts:61-115`). -/
def readLines (markers : List String) (file : String) : List String :=
  ((splitLines file).filterMap (normalizeLineRaw markers)).map trimJS

/-! ## Structural parser — `Parser.parse` (`parser.ts:168-259`) -/

/-- A raw value held in the accumulator object before type evaluation:
a raw string, a duplicate-key-promoted array, or a section object.
(`results` in `parser.ts:169`; sections only ever hold strings and arrays,
and promoted arrays only ever hold strings, but the JavaScript object is
untyped so the type is kept general.) -/
inductive Raw where
  | str : String → Raw
  | arr : List Raw → Raw
  | sec : List (String × Raw) → Raw

/-- Own-property lookup on the modeled object. -/
def lookupKey : List (String × Raw) → String → Option Raw
  | [], _ => none
  | (k, v) :: rest, key => if k = key then some v else lookupKey rest key

/-- JavaScript property assignment `obj[k] = v` on a plain object: an
existing key keeps its position in enumeration order, a new key is appended.
(No reachable key is integer-like — the parser rejects numeric keys — so
insertion order is the full `for..in` order.) -/
def setKey (l : List (String × Raw)) (key : String) (v : Raw) : List (String × Raw) :=
  match l with
  | [] => [(key, v)]
  | (k, w) :: rest => if k = key then (k, v) :: rest else (k, w) :: setKey rest key v

/-- Duplicate-key promotion of `processLine` (`parser.ts:211-229`) inside a
single scope: a fresh key stores the raw string; a second assignment wraps
old and new into a two-element array; further assignments push.  The source
tests `key in results` — which in JavaScript also consults the prototype
chain; inherited `Object.prototype` members are not representable in `Raw`
and no claim exercises such keys, so the test is modeled as own-property
lookup. -/
def assignInto (fields : List (String × Raw)) (key value : String) : List (String × Raw) :=
  match lookupKey fields key with
  | some (Raw.arr xs) => setKey fields key (.arr (xs ++ [.str value]))
  | some v => setKey fields key (.arr [v, .str value])
  | none => setKey fields key (.str value)

/-- The tri-state `keysWithSpaces` policy (`parser.ts:41`). -/
inductive KWS where
  | ignore : KWS
  | allow : KWS
  | error : KWS
deriving DecidableEq

/-- `ParserOptions` (`parser.ts:38-45`).  The alias table is not modeled:
no claim exercises the alias rewriter, and all claims here parse without
aliases. -/
structure ParserOptions where
  keysWithSpaces : Option KWS
deriving DecidableEq

/-- A raised `SyntaxError`, with the interpolated line number kept as a
separate field next to the full message text. -/
structure ParseError where
  lineNo : Nat
  msg : String
deriving DecidableEq

/-- Parser state during `eachRow`: the accumulator object and the active
section name (`useSection`, `parser.ts:170`). -/
structure PState where
  results : List (String × Raw)
  useSection : Option String

/-- The test of `/^\[(.*)\]$/` (`parser.ts:175`): a `[`, any characters other
than a line terminator, then a `]` at the very end. -/
def isSectionLine (row : String) : Bool :=
  startsWithJS row "[" && endsWithJS row "]" &&
    (strDrop (strDropRight row 1) 1).data.all (fun c => c ≠ '\n' && c ≠ '\r')

/-- The capture group of `/^\[(.*)\]$/`: everything between the outer
brackets. -/
def sectionInner (row : String) : String :=
  strDrop (strDropRight row 1) 1

/-- The `/\s+/.test` applied to section and key names
(`parser.ts:184` and `parser.ts:231`). -/
def hasWs (s : String) : Bool :=
  s.data.any isWsJS

/-- Whether the `keysWithSpaces` switch falls into its `error`/`default`
branch (`parser.ts:192-194` and `parser.ts:238-240`). -/
def policyErrors (o : Option KWS) : Bool :=
  match o with
  | some .allow => false
  | some .ignore => false
  | _ => true

/-- Whole-state effect of `processLine` (`parser.ts:211-229`): assign into
the top level when no section is active, otherwise into the active section's
object.  An active section name is always bound to a section object, so the
fallthrough arm is unreachable. -/
def assignState (st : PState) (key value : String) : PState :=
  match st.useSection with
  | none => ⟨assignInto st.results key value, none⟩
  | some s =>
    match lookupKey st.results s with
    | some (Raw.sec fields) => ⟨setKey st.results s (.sec (assignInto fields key value)), some s⟩
    | _ => st

/-- The `eachRow` recursion of `Parser.parse` (`parser.ts:172-251`),
processing the normalized lines from index `pos` on.  Every raised
`SyntaxError` carries `pos + 1` — the 1-based position in the normalized
line list — interpolated into its message. -/
def parseLines (opts : ParserOptions) : List String → Nat → PState → Except ParseError PState
  | [], _, st => .ok st
  | row :: rest, pos, st =>
    if isSectionLine row then
      let sectionName := trimJS (sectionInner row)
      if (evalJS sectionName).isNumber then
        .error ⟨pos + 1, "Invalid syntax at line " ++ natToStr (pos + 1) ++ ". Section name cannot be a number."⟩
      else if hasWs sectionName then
        match opts.keysWithSpaces with
        | some .allow => parseLines opts rest (pos + 1) ⟨setKey st.results sectionName (.sec []), some sectionName⟩
        | some .ignore => parseLines opts rest (pos + 1) st
        | _ => .error ⟨pos + 1, "Invalid syntax at line " ++ natToStr (pos + 1) ++ ". Section name cannot contain spaces."⟩
      else
        parseLines opts rest (pos + 1) ⟨setKey st.results sectionName (.sec []), some sectionName⟩
    else if !containsChar row '=' then
      .error ⟨pos + 1, "Invalid syntax at line " ++ natToStr (pos + 1) ++ ". Expected a key-value pair."⟩
    else
      let parts := (splitOnJS row "=").map trimJS
      let key := parts.getD 0 ""
      let value := parts.getD 1 ""
      if (evalJS key).isNumber then
        .error ⟨pos + 1, "Invalid syntax at line " ++ natToStr (pos + 1) ++ ". Key cannot be a number."⟩
      else if hasWs key then
        match opts.keysWithSpaces with
        | some .allow => parseLines opts rest (pos + 1) (assignState st key value)
        | some .ignore => parseLines opts rest (pos + 1) st
        | _ => .error ⟨pos + 1, "Invalid syntax at line " ++ natToStr (pos + 1) ++ ". Key cannot contain spaces."⟩
      else
        parseLines opts rest (pos + 1) (assignState st key value)

/-! ## Output evaluation — `Parser.#evalOutputObject` (`parser.ts:361-377`) -/

/-- A JavaScript value appearing in the parsed output tree. -/
inductive JVal where
  | num : JSNum → JVal
  | bool : Bool → JVal
  | str : String → JVal
  | arr : List JVal → JVal
  | obj : List (String × JVal) → JVal

/-- The `.value` payload stored by `output[prop] = this.#eval(obj[prop]).value`
(`parser.ts:372`). -/
def typedToJVal : TypedValue → JVal
  | .num n => .num n
  | .bool b => .bool b
  | .arr xs => .arr (xs.map JVal.str)
  | .str s => .str s

/-- `for..in` over a primitive string visits its character indices in
ascending order; each property value is the one-character string at that
index, which is then evaluated by the `else` branch of `#evalOutputObject`. -/
def evalOutputChars (i : Nat) : List Char → List (String × JVal)
  | [] => []
  | c :: rest => (natToStr i, typedToJVal (evalJS (charStr c))) :: evalOutputChars (i + 1) rest

mutual

/-- `Parser.#evalOutputObject` (`parser.ts:361-377`) applied to an arbitrary
value, as the source does: `for..in` over the value's enumerable properties.
For a section object these are its fields in insertion order; for an array,
the element indices; for a raw string — reachable because the array branch
of `#evalOutputObject` maps promoted-array *elements* through
`#evalOutputObject` itself rather than `#eval` — the character indices. -/
def evalOutputObject : Raw → JVal
  | .sec fields => .obj (evalOutputFields fields)
  | .arr xs => .obj (evalOutputIndexed 0 xs)
  | .str s => .obj (evalOutputChars 0 s.data)

/-- The per-property body of the `for..in` loop of `#evalOutputObject`
(`parser.ts:367-373`): an array value maps each *item* through
`#evalOutputObject`; a non-array object recurses; anything else goes through
`#eval`. -/
def evalOutputProp : Raw → JVal
  | .arr xs => .arr (evalOutputArrMap xs)
  | .sec f => .obj (evalOutputFields f)
  | .str s => typedToJVal (evalJS s)

/-- The `for..in` body applied to each field of an object. -/
def evalOutputFields : List (String × Raw) → List (String × JVal)
  | [] => []
  | (k, v) :: rest => (k, evalOutputProp v) :: evalOutputFields rest

/-- The `for..in` body applied to each index of an array value that
`#evalOutputObject` itself was called on. -/
def evalOutputIndexed : Nat → List Raw → List (String × JVal)
  | _, [] => []
  | i, v :: rest => (natToStr i, evalOutputProp v) :: evalOutputIndexed (i + 1) rest

/-- `obj[prop].map((item: any) => this.#evalOutputObject(item))`
(`parser.ts:368`). -/
def evalOutputArrMap : List Raw → List JVal
  | [] => []
  | v :: rest => evalOutputObject v :: evalOutputArrMap rest

end

/-- The whole pipeline behind `Parser.read(input).parse(options)` for inputs
parsed without aliases and without a validation schema: normalize the lines,
run `eachRow` from position 0 on an empty accumulator with no active
section, then evaluate the output object (`parser.ts:61-115` and
`parser.ts:168-259`). -/
def fullParse (markers : List String) (opts : ParserOptions) (input : String) :
    Except ParseError (List (String × JVal)) :=
  (parseLines opts (readLines markers input) 0 ⟨[], none⟩).map
    (fun st => evalOutputFields st.results)

/-! ## Stringify engine — `Stringify.toString` (`stringify.ts:47-94`) -/

/-- Whether `typeof v === 'object'` holds for a tree value. -/
def isObjectJVal : JVal → Bool
  | .arr _ => true
  | .obj _ => true
  | _ => false

/-- Number-to-string used by template interpolation.  Integers render as
their decimal digits; a non-integer with a power-of-ten denominator (the
only non-integers the evaluator can produce) renders with a decimal point. -/
def jsNumToString : JSNum → String
  | .nan => "NaN"
  | .q v =>
    if v.den = 1 then intToStr v.num
    else
      let k := ((List.range 100).find? (fun k => (v * (10 : ℚ) ^ k).den = 1)).getD 1
      let scaled := (v * (10 : ℚ) ^ k).num
      let ds := natToStr scaled.natAbs
      let padded := if ds.data.length < k + 1 then String.mk (List.replicate (k + 1 - ds.data.length) '0') ++ ds else ds
      (if scaled < 0 then "-" else "") ++
        strTake padded (padded.data.length - k) ++ "." ++ strDrop padded (padded.data.length - k)

/-- JavaScript string interpolation of a value, as in `` `${prop} = ${v}` ``:
strings unchanged, numbers and booleans in their default rendering, arrays
joined by `,` element-wise, plain objects as `[object Object]`. -/
def jsToStringTemplate : JVal → String
  | .str s => s
  | .num n => jsNumToString n
  | .bool b => if b then "true" else "false"
  | .arr xs => String.intercalate "," (xs.map (fun x =>
      match x with
      | .str s => s
      | .num n => jsNumToString n
      | .bool b => if b then "true" else "false"
      | .arr _ => "[object Object]"
      | .obj _ => "[object Object]"))
  | .obj _ => "[object Object]"

/-- The `for..in` enumeration a deferred section receives inside
`eachSections` (`stringify.ts:74`): fields in insertion order for a plain
object, ascending indices for an array. -/
def forInFields : JVal → List (String × JVal)
  | .obj f => f
  | .arr xs => (List.range xs.length).map (fun i => (natToStr i, xs.getD i (.str "")))
  | _ => []

/-- The top-level loop of `produceLines` (`stringify.ts:51-65`): values with
`typeof === 'object'` (arrays included) are deferred into the `sections`
queue; every other representable value is a string, number or boolean and is
emitted as a `key = value` line.  Returns the emitted lines and the deferred
sections, each in encounter order. -/
def splitTop : List (String × JVal) → List String × List (String × JVal)
  | [] => ([], [])
  | (p, v) :: rest =>
    let (ls, ss) := splitTop rest
    if isObjectJVal v then (ls, (p, v) :: ss)
    else ((p ++ " = " ++ jsToStringTemplate v) :: ls, ss)

/-- The per-property emission inside `eachSections` (`stringify.ts:74-83`):
an object-typed value (array or plain object) fails the scalar type check
and raises; anything else is emitted as a `key = value` line. -/
def sectionLinesAux : List (String × JVal) → Except String (List String)
  | [] => .ok []
  | (p, v) :: rest =>
    if isObjectJVal v then
      .error ("The value of the property \"" ++ p ++ "\" must be a string or a number")
    else
      match sectionLinesAux rest with
      | .error e => .error e
      | .ok tail => .ok ((p ++ " = " ++ jsToStringTemplate v) :: tail)

/-- The `eachSections` recursion (`stringify.ts:69-89`): for each deferred
section, a line holding the line-ending plus `[name]`, then its property
lines. -/
def eachSections (eol : String) : List (String × JVal) → Except String (List String)
  | [] => .ok []
  | (name, items) :: rest =>
    match sectionLinesAux (forInFields items) with
    | .error e => .error e
    | .ok ls =>
      match eachSections eol rest with
      | .error e => .error e
      | .ok tail => .ok (((eol ++ "[" ++ name ++ "]") :: ls) ++ tail)

/-- `Stringify.toString` (`stringify.ts:47-94`) on a typed tree: emit
top-level scalars, then each deferred section, join every emitted line with
the configured line-ending and append one trailing line-ending. -/
def stringifyDoc (eol : String) (doc : List (String × JVal)) : Except String String :=
  let (scalarLines, sections) := splitTop doc
  match eachSections eol sections with
  | .error e => .error e
  | .ok sls => .ok (String.intercalate eol (scalarLines ++ sls) ++ eol)

/-! ## Schema validator — `validateSchema` (`parser.ts:261-358`) -/

/-- The character class `[^<>()[\]\\.,;:\s@"]` of the email pattern's atom. -/
def emailAtomChar (c : Char) : Bool :=
  !(c = '<' || c = '>' || c = '(' || c = ')' || c = '[' || c = ']' || c = '\\' ||
    c = '.' || c = ',' || c = ';' || c = ':' || c = '@' || c = '"' || isWsJS c)

/-- The local part of the email pattern (`parser.ts:293`): dotted non-empty
atoms, or at least one non-line-terminator character between double
quotes. -/
def emailLocalOk (s : String) : Bool :=
  ((splitOnJS s ".").all (fun part => part ≠ "" && part.data.all emailAtomChar)) ||
    (s.data.length ≥ 3 && startsWithJS s "\"" && endsWithJS s "\"" &&
      (strDropRight (strDrop s 1) 1).data.all (fun c => c ≠ '\n' && c ≠ '\r'))

/-- The domain part of the email pattern: a bracketed dotted quad of 1-3
digit groups, or one or more alphanumeric-hyphen labels ending in an
all-alphabetic label of length at least two. -/
def emailDomainOk (s : String) : Bool :=
  (startsWithJS s "[" && endsWithJS s "]" &&
    (let parts := splitOnJS (strDropRight (strDrop s 1) 1) "."
     parts.length = 4 &&
       parts.all (fun p => p ≠ "" && p.data.length ≤ 3 && p.data.all Char.isDigit))) ||
  (let parts := splitOnJS s "."
   parts.length ≥ 2 &&
     parts.dropLast.all (fun p => p ≠ "" && p.data.all (fun c => c.isAlphanum || c = '-')) &&
     (let last := parts.getLastD ""
      last.data.length ≥ 2 && last.data.all Char.isAlpha))

/-- The anchored email regex of `parser.ts:293`: since the pattern is a pure
regular expression, it matches exactly when the string decomposes at some
`@` into a matching local part and a matching domain. -/
def emailTest (s : String) : Bool :=
  (List.range s.data.length).any (fun i =>
    s.data.getD i ' ' = '@' && emailLocalOk (strTake s i) && emailDomainOk (strDrop s (i + 1)))

/-- Modelled from the spec: the `url` kind calls the JavaScript `new URL`
builtin, whose full WHATWG parsing algorithm is outside this repository.
Per the spec the value must be "a string constructible as a URL"; modeled as
requiring an ASCII scheme followed by a colon.  No claim exercises this
kind. -/
def urlConstructible (s : String) : Bool :=
  match s.data.takeWhile (fun c => c ≠ ':') with
  | [] => false
  | c :: rest =>
    c.isAlpha && rest.all (fun d => d.isAlphanum || d = '+' || d = '-' || d = '.') &&
      containsChar s ':'

/-- The leaf kinds of a schema entry (`types.ts`): a named kind or an
allowed-value set. -/
inductive SKind where
  | string : SKind
  | email : SKind
  | url : SKind
  | hex : SKind
  | number : SKind
  | boolean : SKind
  | array : SKind
  | sectionHeader : SKind
  | oneOf : List String → SKind

/-- A schema node: a `(kind, required)` leaf pair or a nested sub-schema. -/
inductive SNode where
  | leaf : SKind → Bool → SNode
  | nested : List (String × SNode) → SNode

/-- Property read `obj[prop]` on a tree value: named fields on a plain
object, canonical index strings on an array, nothing on scalars. -/
def getProp (v : JVal) (k : String) : Option JVal :=
  match v with
  | .obj fields =>
    let rec go : List (String × JVal) → Option JVal
      | [] => none
      | (k2, v2) :: rest => if k2 = k then some v2 else go rest
    go fields
  | .arr xs => (List.range xs.length).findSome? (fun i => if natToStr i = k then xs.getD i (.str "") else none)
  | _ => none

/-- `Object.prototype.hasOwnProperty.call(obj, prop)` on a tree value. -/
def hasProp (v : JVal) (k : String) : Bool :=
  (getProp v k).isSome

/-- The `switch (schema[prop][0])` and allowed-value-set checks of
`validateSchema` (`parser.ts:278-352`), applied to `obj[prop]` whether or
not the property is present (an absent property reaches these checks as
`undefined` and fails every kind's type test). -/
def checkKind (v : JVal) (prop : String) : SKind → Except String Unit
  | .oneOf allowed =>
    match getProp v prop with
    | some (.str s) =>
      if allowed.contains s then .ok ()
      else .error ("The property \"" ++ prop ++ "\" must be one of the following: " ++
        String.intercalate ", " allowed ++ ".")
    | _ => .error ("The property \"" ++ prop ++ "\" must be a string.")
  | .email =>
    match getProp v prop with
    | some (.str s) =>
      if emailTest s then .ok ()
      else .error ("The property \"" ++ prop ++ "\" must be a valid email.")
    | _ => .error ("The property \"" ++ prop ++ "\" must be a valid email.")
  | .url =>
    match getProp v prop with
    | some (.str s) =>
      if urlConstructible s then .ok ()
      else .error ("The property \"" ++ prop ++ "\" must be a valid URL.")
    | _ => .error ("The property \"" ++ prop ++ "\" must be a valid URL.")
  | .hex =>
    match getProp v prop with
    | some (.str s) =>
      if s.data.all (fun c => c.isDigit || ('a' ≤ c && c ≤ 'f')) then .ok ()
      else .error ("The property \"" ++ prop ++ "\" must be a valid hexadecimal number.")
    | _ => .error ("The property \"" ++ prop ++ "\" must be a valid hexadecimal number.")
  | .string =>
    match getProp v prop with
    | some (.str _) => .ok ()
    | _ => .error ("The property \"" ++ prop ++ "\" must be a string.")
  | .number =>
    match getProp v prop with
    | some (.num (.q _)) => .ok ()
    | _ => .error ("The property \"" ++ prop ++ "\" must be a number.")
  | .array =>
    match getProp v prop with
    | some (.arr _) => .ok ()
    | _ => .error ("The property \"" ++ prop ++ "\" must be an array.")
  | .boolean =>
    match getProp v prop with
    | some (.bool _) => .ok ()
    | _ => .error ("The property \"" ++ prop ++ "\" must be a boolean.")
  | .sectionHeader =>
    match getProp v prop with
    | some w =>
      if isObjectJVal w then .ok ()
      else .error ("The property \"" ++ prop ++ "\" must be the header name of a section.")
    | none => .error ("The property \"" ++ prop ++ "\" must be the header name of a section.")

mutual

/-- `validateSchema` (`parser.ts:261-358`): walk the declared schema
properties in order, fail-fast on the first violation, produce nothing on
success.  The `continue` guard of `parser.ts:263` never fires (a declared
schema property is always an own property of the schema object), so it has
no counterpart here. -/
def validateSchema : JVal → List (String × SNode) → Except String Unit
  | _, [] => .ok ()
  | v, (prop, node) :: rest =>
    match validateEntry v prop node with
    | .error e => .error e
    | .ok _ => validateSchema v rest

/-- One declared schema property: a nested sub-schema requires the value to
be object-typed and recurses (`parser.ts:266-271`); a `(kind, required)`
pair raises the "required" error only when the property is absent *and*
required, then falls through to the kind checks regardless of presence
(`parser.ts:272-352`). -/
def validateEntry (v : JVal) (prop : String) : SNode → Except String Unit
  | .nested sub =>
    match getProp v prop with
    | some pv =>
      if isObjectJVal pv then validateSchema pv sub
      else .error ("The property \"" ++ prop ++ "\" must be an section.")
    | none => .error ("The property \"" ++ prop ++ "\" must be an section.")
  | .leaf kind required =>
    if !hasProp v prop && required then
      .error ("The property \"" ++ prop ++ "\" is required.")
    else checkKind v prop kind

end

/-! ## Spec-side definitions

These follow the specification's words rather than the source, for the
refinement comparisons below. -/

/-- Following the spec's words for the Line Normalizer: "for each raw line,
if no configured marker occurs in it, keep it trimmed (when non-blank).
Otherwise, try each marker in order; the first marker whose truncation point
yields a remainder containing no *other* marker is applied, and the
truncated, trimmed remainder is kept if non-blank."  (The remainder never
contains the applied marker itself — it stops before that marker's first
occurrence — so "no other marker" is rendered as "no marker".) -/
def specNormalizeLine (markers : List String) (line : String) : Option String :=
  if markers.all (fun m => (indexOfSub line m).isNone) then
    if trimJS line = "" then none else some (trimJS line)
  else
    match markers.findSome? (fun m =>
      (indexOfSub line m).bind (fun i =>
        if markers.all (fun m2 => (indexOfSub (strTake line i) m2).isNone) then
          some (strTake line i)
        else none)) with
    | some r => if trimJS r = "" then none else some (trimJS r)
    | none => none

/-- Index of the first character satisfying `p`. -/
def firstPosP (p : Char → Bool) : List Char → Option Nat
  | [] => none
  | c :: rest => if p c then some 0 else (firstPosP p rest).map (· + 1)

/-- Whether a character is one of the configured single-character markers. -/
def pMark (markers : List String) (c : Char) : Bool :=
  markers.contains (charStr c)

/-- Canonical form both the source normalizer and the spec normalizer reduce
to for single-character markers: truncate at the first marker character, then
keep the trimmed remainder when non-blank. -/
def canonicalNormalize (markers : List String) (line : String) : Option String :=
  match firstPosP (pMark markers) line.data with
  | none => if trimJS line = "" then none else some (trimJS line)
  | some i => if trimJS (strTake line i) = "" then none else some (trimJS (strTake line i))

/-- State-independent characterization of the normalized lines on which
`eachRow` raises: a section line whose trimmed name is numeric or has
whitespace under a rejecting policy, a non-section line without `=`, or a
key that is numeric or has whitespace under a rejecting policy. -/
def badLine (opts : ParserOptions) (row : String) : Bool :=
  if isSectionLine row then
    let sectionName := trimJS (sectionInner row)
    (evalJS sectionName).isNumber || (hasWs sectionName && policyErrors opts.keysWithSpaces)
  else if !containsChar row '=' then true
  else
    let key := ((splitOnJS row "=").map trimJS).getD 0 ""
    (evalJS key).isNumber || (hasWs key && policyErrors opts.keysWithSpaces)

/-! ## Lemmas: first-position searches -/

theorem firstPosP_none_iff (p : Char → Bool) (l : List Char) :
    firstPosP p l = none ↔ ∀ c ∈ l, p c = false := by
  induction l with
  | nil => simp [firstPosP]
  | cons c rest ih =>
    by_cases h : p c = true
    · simp [firstPosP, h]
    · simp only [Bool.not_eq_true] at h
      simp [firstPosP, h, Option.map_eq_none', ih]

theorem firstPosP_isSome_any (p : Char → Bool) (l : List Char) :
    (firstPosP p l).isSome = l.any p := by
  induction l with
  | nil => simp [firstPosP]
  | cons c rest ih =>
    by_cases h : p c = true
    · simp [firstPosP, h]
    · simp only [Bool.not_eq_true] at h
      simp [firstPosP, h, ih]

theorem firstPosP_some_lt {p : Char → Bool} {l : List Char} {i : Nat}
    (h : firstPosP p l = some i) : i < l.length := by
  induction l generalizing i with
  | nil => simp [firstPosP] at h
  | cons c rest ih =>
    by_cases hc : p c = true
    · simp only [firstPosP, hc, if_true, Option.some.injEq] at h
      obtain rfl := h
      simp
    · simp only [Bool.not_eq_true] at hc
      simp only [firstPosP, hc, Bool.false_eq_true, if_false, Option.map_eq_some'] at h
      obtain ⟨j, hj, rfl⟩ := h
      have := ih hj
      simp only [List.length_cons]
      omega

theorem firstPosP_take_all {p : Char → Bool} {l : List Char} {i : Nat}
    (h : firstPosP p l = some i) : (l.take i).all (fun c => !p c) = true := by
  induction l generalizing i with
  | nil => simp [firstPosP] at h
  | cons c rest ih =>
    by_cases hc : p c = true
    · simp only [firstPosP, hc, if_true, Option.some.injEq] at h
      subst h
      simp
    · simp only [Bool.not_eq_true] at hc
      simp only [firstPosP, hc, Bool.false_eq_true, if_false, Option.map_eq_some'] at h
      obtain ⟨j, hj, rfl⟩ := h
      simp [List.take_succ_cons, hc, ih hj]

theorem firstPosP_get {p : Char → Bool} {l : List Char} {i : Nat}
    (h : firstPosP p l = some i) : ∃ c, l.get? i = some c ∧ p c = true := by
  induction l generalizing i with
  | nil => simp [firstPosP] at h
  | cons c rest ih =>
    by_cases hc : p c = true
    · simp only [firstPosP, hc, if_true, Option.some.injEq] at h
      subst h
      exact ⟨c, rfl, hc⟩
    · simp only [Bool.not_eq_true] at hc
      simp only [firstPosP, hc, Bool.false_eq_true, if_false, Option.map_eq_some'] at h
      obtain ⟨j, hj, rfl⟩ := h
      obtain ⟨d, hd, hpd⟩ := ih hj
      exact ⟨d, by simpa using hd, hpd⟩

theorem firstPosP_of_take_get {p : Char → Bool} {l : List Char} {i : Nat} {c : Char}
    (h1 : (l.take i).all (fun c => !p c) = true)
    (h2 : l.get? i = some c) (h3 : p c = true) : firstPosP p l = some i := by
  induction l generalizing i with
  | nil => simp at h2
  | cons d rest ih =>
    cases i with
    | zero =>
      simp only [List.get?] at h2
      obtain rfl : d = c := by simpa using h2
      simp [firstPosP, h3]
    | succ j =>
      simp only [List.take_succ_cons, List.all_cons, Bool.and_eq_true, Bool.not_eq_true'] at h1
      simp only [List.get?] at h2
      simp [firstPosP, h1.1, ih h1.2 h2, h3]

theorem firstPosP_take {p : Char → Bool} {l : List Char} {n j : Nat}
    (hj : firstPosP p (l.take n) = some j) : firstPosP p l = some j := by
  have hlt : j < (l.take n).length := firstPosP_some_lt hj
  have hn : j < n := by
    simp only [List.length_take] at hlt
    omega
  have h1 : ((l.take n).take j).all (fun c => !p c) = true := firstPosP_take_all hj
  rw [List.take_take, Nat.min_eq_left (Nat.le_of_lt hn)] at h1
  obtain ⟨c, hc, hpc⟩ := firstPosP_get hj
  rw [List.get?_take hn] at hc
  exact firstPosP_of_take_get h1 hc hpc

theorem all_take_of_all {α : Type} {p : α → Bool} {l : List α}
    (h : l.all p = true) (n : Nat) : (l.take n).all p = true := by
  rw [List.all_eq_true] at h ⊢
  intro x hx
  exact h x (List.mem_of_mem_take hx)

theorem idxAux_singleton (c : Char) (l : List Char) (i : Nat) :
    idxAux [c] l i = (firstPosP (fun d => d == c) l).map (· + i) := by
  induction l generalizing i with
  | nil => simp [idxAux, firstPosP, List.isPrefixOf]
  | cons d rest ih =>
    by_cases h : d = c
    · subst h
      simp [idxAux, firstPosP, List.isPrefixOf]
    · have hbeq : (c == d) = false := by simp [beq_iff_eq]; exact fun he => h he.symm
      have hbeq2 : (d == c) = false := by simp [beq_iff_eq, h]
      simp only [idxAux, List.isPrefixOf, hbeq, Bool.false_and, Bool.false_eq_true, if_false,
        firstPosP, hbeq2, ih, Option.map_map]
      cases firstPosP (fun d => d == c) rest with
      | none => simp
      | some j =>
        simp only [Option.map_some', Function.comp]
        congr 1
        omega

theorem indexOfSub_singleton (s : String) (c : Char) :
    indexOfSub s (charStr c) = firstPosP (fun d => d == c) s.data := by
  rw [indexOfSub]
  show idxAux [c] s.data 0 = _
  rw [idxAux_singleton]
  cases firstPosP (fun d => d == c) s.data with
  | none => rfl
  | some j => simp

/-! ## Lemmas: trimming -/

theorem dropWhile_dropWhile {α : Type} (p : α → Bool) (l : List α) :
    (l.dropWhile p).dropWhile p = l.dropWhile p := by
  induction l with
  | nil => simp
  | cons c rest ih =>
    by_cases h : p c = true
    · simp [List.dropWhile_cons, h, ih]
    · simp only [Bool.not_eq_true] at h
      simp [List.dropWhile_cons, h]

theorem head?_dropWhile_not {α : Type} {p : α → Bool} {l : List α} {c : α}
    (h : (l.dropWhile p).head? = some c) : p c = false := by
  induction l with
  | nil => simp at h
  | cons d rest ih =>
    by_cases hd : p d = true
    · simp only [List.dropWhile_cons, hd, if_true] at h
      exact ih h
    · simp only [Bool.not_eq_true] at hd
      simp only [List.dropWhile_cons, hd, Bool.false_eq_true, if_false, List.head?_cons,
        Option.some.injEq] at h
      subst h
      exact hd

theorem dropWhile_eq_self_of_head {α : Type} {p : α → Bool} {l : List α}
    (h : ∀ c, l.head? = some c → p c = false) : l.dropWhile p = l := by
  cases l with
  | nil => simp
  | cons c rest => simp [List.dropWhile_cons, h c rfl]

theorem trimJS_idem (s : String) : trimJS (trimJS s) = trimJS s := by
  show String.mk _ = String.mk _
  have hdata : (trimJS s).data =
      ((s.data.dropWhile isWsJS).reverse.dropWhile isWsJS).reverse := rfl
  rw [hdata]
  have hinner : (((s.data.dropWhile isWsJS).reverse.dropWhile isWsJS).reverse.dropWhile isWsJS) =
      ((s.data.dropWhile isWsJS).reverse.dropWhile isWsJS).reverse := by
    apply dropWhile_eq_self_of_head
    intro c hc
    rw [List.head?_reverse] at hc
    have hsplit := List.takeWhile_append_dropWhile (p := isWsJS)
      (l := (s.data.dropWhile isWsJS).reverse)
    by_cases hne : (s.data.dropWhile isWsJS).reverse.dropWhile isWsJS = []
    · rw [hne] at hc
      simp at hc
    · have : ((s.data.dropWhile isWsJS).reverse.takeWhile isWsJS ++
          (s.data.dropWhile isWsJS).reverse.dropWhile isWsJS).getLast? =
          ((s.data.dropWhile isWsJS).reverse.dropWhile isWsJS).getLast? :=
        List.getLast?_append_of_ne_nil _ hne
      rw [hsplit] at this
      rw [← this] at hc
      rw [List.getLast?_reverse] at hc
      exact head?_dropWhile_not hc
  rw [hinner, List.reverse_reverse, dropWhile_dropWhile]

/-! ## Lemmas: marker characters -/

theorem charStr_inj {c d : Char} (h : charStr c = charStr d) : c = d := by
  have := congrArg String.data h
  simpa [charStr] using this

theorem pMark_of_mem {markers : List String} {c : Char}
    (h : charStr c ∈ markers) : pMark markers c = true :=
  List.elem_eq_true_of_mem h

theorem mem_of_pMark {markers : List String} {c : Char}
    (h : pMark markers c = true) : charStr c ∈ markers :=
  List.mem_of_elem_eq_true h

theorem hasComments_eq_any (markers : List String) (s : String) :
    hasComments markers s = s.data.any (pMark markers) := rfl

/-- For a single-character marker, `indexOfSub` finds the first occurrence of
its character. -/
theorem indexOfSub_charStr (s : String) (c : Char) :
    indexOfSub s (charStr c) = firstPosP (fun d => d == c) s.data :=
  indexOfSub_singleton s c

theorem indexOfSub_none_iff_char {s : String} {c : Char} :
    indexOfSub s (charStr c) = none ↔ ∀ d ∈ s.data, (d == c) = false := by
  rw [indexOfSub_charStr]
  exact firstPosP_none_iff _ _

/-! ## Lemmas: the comment stripper for single-character markers -/

theorem indexOfSub_strTake_none {cur : String} {c : Char} {i : Nat}
    (h : ∀ d ∈ cur.data.take i, (d == c) = false) :
    indexOfSub (strTake cur i) (charStr c) = none := by
  rw [indexOfSub_charStr, firstPosP_none_iff]
  exact h

theorem stripGo_spec (markers : List String)
    (hsc : ∀ m ∈ markers, ∃ c, m = charStr c) :
    ∀ (ms : List String) (cur : String),
    (∀ m ∈ ms, m ∈ markers) →
    (∀ m ∈ markers, m ∉ ms → indexOfSub cur m = none) →
    stripGo markers ms cur =
      match firstPosP (pMark markers) cur.data with
      | none => none
      | some i => if trimJS (strTake cur i) = "" then none else some (strTake cur i) := by
  intro ms
  induction ms with
  | nil =>
    intro cur _ habs
    have hnone : firstPosP (pMark markers) cur.data = none := by
      rw [firstPosP_none_iff]
      intro c hc
      by_contra hne
      have hp : pMark markers c = true := by
        cases hb : pMark markers c with
        | true => rfl
        | false => exact absurd hb hne
      have hmem := mem_of_pMark hp
      have := habs (charStr c) hmem (List.not_mem_nil _)
      rw [indexOfSub_none_iff_char] at this
      have := this c hc
      simp at this
    simp [stripGo, hnone]
  | cons m ms ih =>
    intro cur hsub habs
    obtain ⟨c, rfl⟩ := hsc m (hsub m (List.mem_cons_self m ms))
    have hsub' : ∀ m2 ∈ ms, m2 ∈ markers := fun m2 hm2 => hsub m2 (List.mem_cons_of_mem _ hm2)
    cases hidx : indexOfSub cur (charStr c) with
    | none =>
      have hstep : stripGo markers (charStr c :: ms) cur = stripGo markers ms cur := by
        simp only [stripGo, hidx]
      rw [hstep]
      apply ih cur hsub'
      intro m2 hm2 hnotin
      by_cases he : m2 = charStr c
      · rw [he]; exact hidx
      · exact habs m2 hm2 (by
          intro hcontra
          rcases List.mem_cons.mp hcontra with h1 | h2
          · exact he h1
          · exact hnotin h2)
    | some i =>
      have hfc : firstPosP (fun d => d == c) cur.data = some i := by
        rw [← indexOfSub_charStr]; exact hidx
      have htake_all_c : ∀ d ∈ cur.data.take i, (d == c) = false := by
        have := firstPosP_take_all hfc
        rw [List.all_eq_true] at this
        intro d hd
        have := this d hd
        simpa using this
      by_cases hcm : hasComments markers (strTake cur i) = true
      · have hstep : stripGo markers (charStr c :: ms) cur = stripGo markers ms (strTake cur i) := by
          simp only [stripGo, hidx, hcm, if_true]
        rw [hstep]
        have habs2 : ∀ m2 ∈ markers, m2 ∉ ms → indexOfSub (strTake cur i) m2 = none := by
          intro m2 hm2 hnotin
          by_cases he : m2 = charStr c
          · rw [he]
            exact indexOfSub_strTake_none htake_all_c
          · have hnone := habs m2 hm2 (by
              intro hcontra
              rcases List.mem_cons.mp hcontra with h1 | h2
              · exact he h1
              · exact hnotin h2)
            obtain ⟨c2, rfl⟩ := hsc m2 hm2
            rw [indexOfSub_none_iff_char] at hnone
            apply indexOfSub_strTake_none
            intro d hd
            exact hnone d (List.mem_of_mem_take hd)
        rw [ih (strTake cur i) hsub' habs2]
        have hsome : (firstPosP (pMark markers) (strTake cur i).data).isSome = true := by
          rw [firstPosP_isSome_any]
          exact hcm
        obtain ⟨j, hj⟩ := Option.isSome_iff_exists.mp hsome
        have hj' : firstPosP (pMark markers) cur.data = some j := firstPosP_take hj
        have hjlt : j < (cur.data.take i).length := firstPosP_some_lt hj
        have hji : j ≤ i := by
          simp only [List.length_take] at hjlt
          omega
        have htt : strTake (strTake cur i) j = strTake cur j := by
          show String.mk ((cur.data.take i).take j) = String.mk (cur.data.take j)
          rw [List.take_take, Nat.min_eq_left hji]
        rw [hj, hj']
        simp only [htt]
      · have hstep : stripGo markers (charStr c :: ms) cur =
            if trimJS (strTake cur i) = "" then none else some (strTake cur i) := by
          simp only [stripGo, hidx, hcm, Bool.false_eq_true, if_false]
        have hall : (cur.data.take i).all (fun d => !pMark markers d) = true := by
          rw [List.all_eq_true]
          intro d hd
          have : pMark markers d = false := by
            cases hb : pMark markers d with
            | false => rfl
            | true =>
              exfalso
              apply hcm
              rw [hasComments_eq_any, List.any_eq_true]
              exact ⟨d, hd, hb⟩
          simp [this]
        obtain ⟨d, hget, hdc⟩ := firstPosP_get hfc
        have hdc' : d = c := by simpa using hdc
        subst hdc'
        have hpm : pMark markers d = true := pMark_of_mem (hsub _ (List.mem_cons_self _ _))
        have hfp : firstPosP (pMark markers) cur.data = some i :=
          firstPosP_of_take_get hall hget hpm
        rw [hstep, hfp]

theorem firstPosP_min {p : Char → Bool} {l : List Char} {j k : Nat} {c : Char}
    (hj : firstPosP p l = some j) (hk : l.get? k = some c) (hpc : p c = true) : j ≤ k := by
  by_contra hlt
  push_neg at hlt
  have hall := firstPosP_take_all hj
  rw [List.all_eq_true] at hall
  have hmemc : c ∈ l.take j := by
    have : (l.take j).get? k = some c := by
      rw [List.get?_take hlt]
      exact hk
    exact List.get?_mem this
  have := hall c hmemc
  simp [hpc] at this

theorem markersAllNone_iff_firstPos_none {markers : List String}
    (hsc : ∀ m ∈ markers, ∃ c, m = charStr c) (s : String) :
    markers.all (fun m => (indexOfSub s m).isNone) = true ↔
      firstPosP (pMark markers) s.data = none := by
  constructor
  · intro hall
    rw [List.all_eq_true] at hall
    rw [firstPosP_none_iff]
    intro c hc
    by_contra hne
    have hp : pMark markers c = true := by
      cases hb : pMark markers c with
      | true => rfl
      | false => exact absurd hb hne
    have hmem := mem_of_pMark hp
    have := hall (charStr c) hmem
    rw [Option.isNone_iff_eq_none, indexOfSub_none_iff_char] at this
    have := this c hc
    simp at this
  · intro hnone
    rw [firstPosP_none_iff] at hnone
    rw [List.all_eq_true]
    intro m hm
    obtain ⟨c, rfl⟩ := hsc m hm
    rw [Option.isNone_iff_eq_none, indexOfSub_none_iff_char]
    intro d hd
    by_contra hne
    have hdc : d = c := by
      cases hb : d == c with
      | true => simpa using hb
      | false => exact absurd hb hne
    subst hdc
    have := hnone d hd
    rw [pMark_of_mem hm] at this
    exact Bool.true_eq_false.mp this

theorem codeNormalizeLine_canonical (markers : List String)
    (hsc : ∀ m ∈ markers, ∃ c, m = charStr c) (line : String) :
    codeNormalizeLine markers line = canonicalNormalize markers line := by
  have hstrip := stripGo_spec markers hsc markers line (fun m hm => hm)
    (fun m hm hnot => absurd hm hnot)
  by_cases hcm : hasComments markers line = true
  · have hcond : (!hasComments markers line && decide (trimJS line ≠ "")) = false := by
      simp [hcm]
    unfold codeNormalizeLine normalizeLineRaw
    rw [hcond]
    simp only [Bool.false_eq_true, if_false, hstrip]
    have hsome : (firstPosP (pMark markers) line.data).isSome = true := by
      rw [firstPosP_isSome_any, ← hasComments_eq_any]
      exact hcm
    obtain ⟨i, hi⟩ := Option.isSome_iff_exists.mp hsome
    unfold canonicalNormalize
    rw [hi]
    by_cases hblank : trimJS (strTake line i) = ""
    · simp [hblank]
    · simp [hblank]
  · have hfp : firstPosP (pMark markers) line.data = none := by
      rw [firstPosP_none_iff]
      intro c hc
      cases hb : pMark markers c with
      | false => rfl
      | true =>
        exfalso
        apply hcm
        rw [hasComments_eq_any, List.any_eq_true]
        exact ⟨c, hc, hb⟩
    unfold codeNormalizeLine normalizeLineRaw canonicalNormalize
    rw [hfp]
    by_cases hblank : trimJS line = ""
    · have hcond : (!hasComments markers line && decide (trimJS line ≠ "")) = false := by
        simp [hblank]
      rw [hcond]
      simp only [Bool.false_eq_true, if_false, hstrip, hfp]
      simp [hblank]
    · have hcond : (!hasComments markers line && decide (trimJS line ≠ "")) = true := by
        simp [hcm, hblank]
      rw [hcond]
      simp [hblank, trimJS_idem]

theorem findSome?_eq_some_of {α β : Type} {f : α → Option β} {l : List α} {r : β}
    (hex : ∃ m ∈ l, f m ≠ none)
    (huniq : ∀ m ∈ l, ∀ x, f m = some x → x = r) :
    l.findSome? f = some r := by
  induction l with
  | nil => simp at hex
  | cons a rest ih =>
    rw [List.findSome?_cons]
    cases hfa : f a with
    | some x =>
      rw [huniq a (List.mem_cons_self a rest) x hfa]
    | none =>
      apply ih
      · obtain ⟨m, hm, hfm⟩ := hex
        rcases List.mem_cons.mp hm with rfl | hmem
        · exact absurd hfa hfm
        · exact ⟨m, hmem, hfm⟩
      · intro m hm x hfm
        exact huniq m (List.mem_cons_of_mem a hm) x hfm

theorem specNormalizeLine_canonical (markers : List String)
    (hsc : ∀ m ∈ markers, ∃ c, m = charStr c) (line : String) :
    specNormalizeLine markers line = canonicalNormalize markers line := by
  unfold specNormalizeLine canonicalNormalize
  by_cases hall : markers.all (fun m => (indexOfSub line m).isNone) = true
  · rw [hall]
    rw [(markersAllNone_iff_firstPos_none hsc line).mp hall]
    simp
  · have hcond : markers.all (fun m => (indexOfSub line m).isNone) = false := by
      cases hb : markers.all (fun m => (indexOfSub line m).isNone) with
      | false => rfl
      | true => exact absurd hb hall
    rw [hcond]
    have hsome : firstPosP (pMark markers) line.data ≠ none := by
      intro hnone
      exact hall ((markersAllNone_iff_firstPos_none hsc line).mpr hnone)
    obtain ⟨istar, histar⟩ := Option.ne_none_iff_exists'.mp hsome
    rw [histar]
    have htakeStar : ∀ d ∈ line.data.take istar, pMark markers d = false := by
      have := firstPosP_take_all histar
      rw [List.all_eq_true] at this
      intro d hd
      have := this d hd
      simpa using this
    have hQ1 : ∀ m ∈ markers, ∀ x,
        (indexOfSub line m).bind (fun i =>
          if markers.all (fun m2 => (indexOfSub (strTake line i) m2).isNone) then
            some (strTake line i)
          else none) = some x → x = strTake line istar := by
      intro m hm x hfm
      obtain ⟨c, rfl⟩ := hsc m hm
      rw [Option.bind_eq_some] at hfm
      obtain ⟨j, hj, hcondj⟩ := hfm
      by_cases hc2 : markers.all (fun m2 => (indexOfSub (strTake line j) m2).isNone) = true
      · rw [if_pos hc2] at hcondj
        obtain rfl : strTake line j = x := by simpa using hcondj
        have hfpnone := (markersAllNone_iff_firstPos_none hsc (strTake line j)).mp hc2
        rw [firstPosP_none_iff] at hfpnone
        rw [indexOfSub_charStr] at hj
        obtain ⟨d, hget, hdc⟩ := firstPosP_get hj
        have hdc' : d = c := by simpa using hdc
        subst hdc'
        have htall : (line.data.take j).all (fun e => !pMark markers e) = true := by
          rw [List.all_eq_true]
          intro e he
          simp [hfpnone e he]
        have hfpj : firstPosP (pMark markers) line.data = some j :=
          firstPosP_of_take_get htall hget (pMark_of_mem hm)
        rw [histar] at hfpj
        have hij : istar = j := by simpa using hfpj
        subst hij
        rfl
      · rw [if_neg hc2] at hcondj
        simp at hcondj
    have hQ2 : ∃ m ∈ markers,
        (indexOfSub line m).bind (fun i =>
          if markers.all (fun m2 => (indexOfSub (strTake line i) m2).isNone) then
            some (strTake line i)
          else none) ≠ none := by
      obtain ⟨c, hgetStar, hpmc⟩ := firstPosP_get histar
      refine ⟨charStr c, mem_of_pMark hpmc, ?_⟩
      have hcmem : c ∈ line.data := List.get?_mem hgetStar
      have hidxSome : (firstPosP (fun d => d == c) line.data).isSome = true := by
        rw [firstPosP_isSome_any, List.any_eq_true]
        exact ⟨c, hcmem, by simp⟩
      obtain ⟨j, hj⟩ := Option.isSome_iff_exists.mp hidxSome
      have hji : j ≤ istar := firstPosP_min hj hgetStar (by simp)
      rw [indexOfSub_charStr, hj]
      have hc2 : markers.all (fun m2 => (indexOfSub (strTake line j) m2).isNone) = true := by
        apply (markersAllNone_iff_firstPos_none hsc (strTake line j)).mpr
        rw [firstPosP_none_iff]
        intro d hd
        apply htakeStar
        have heq : line.data.take j = (line.data.take istar).take j := by
          rw [List.take_take, Nat.min_eq_left hji]
        have hd2 : d ∈ line.data.take j := hd
        rw [heq] at hd2
        exact List.mem_of_mem_take hd2
      simp only [Option.some_bind]
      rw [if_pos hc2]
      simp
    rw [findSome?_eq_some_of hQ2 hQ1]
    simp

/-- C5 (amended): for every non-empty list of *single-character* comment
markers, the Line Normalizer agrees with the spec's description — a line is
kept trimmed when no configured marker occurs in it and it is non-blank, and
otherwise the first marker whose truncation point yields a marker-free
remainder is applied, the truncated trimmed remainder being kept when
non-blank; consequently an input consisting only of comment lines and blank
lines parses to an empty document.  (The original claim quantified over
arbitrary marker lists; it fails for multi-character markers, whose
occurrences never fire the source's per-character comment test.) -/
theorem c5_line_normalizer (markers : List String) (hne : markers ≠ [])
    (hsc : ∀ m ∈ markers, ∃ c, m = charStr c) :
    (∀ line, codeNormalizeLine markers line = specNormalizeLine markers line) ∧
    (∀ opts input, (∀ l ∈ splitLines input, specNormalizeLine markers l = none) →
      fullParse markers opts input = .ok []) := by
  have heq : ∀ line, codeNormalizeLine markers line = specNormalizeLine markers line := by
    intro line
    rw [codeNormalizeLine_canonical markers hsc line, specNormalizeLine_canonical markers hsc line]
  refine ⟨heq, ?_⟩
  intro opts input hcomment
  have hlines : readLines markers input = [] := by
    unfold readLines
    have hfm : (splitLines input).filterMap (normalizeLineRaw markers) = [] := by
      rw [List.filterMap_eq_nil]
      intro l hl
      have h1 : codeNormalizeLine markers l = none := by
        rw [heq l]
        exact hcomment l hl
      unfold codeNormalizeLine at h1
      exact Option.map_eq_none'.mp h1
    rw [hfm]
    rfl
  unfold fullParse
  rw [hlines]
  rfl

/-- C5 counterexample: with the configured (multi-character) marker `"ab"`,
the raw line `"zab"` contains a configured marker, yet the normalizer keeps
it whole — the claim requires truncation to `"z"` (as the spec-side
normalizer produces); and the input `"ab x"`, which consists of a single
comment line, parses to a SyntaxError rather than an empty document. -/
theorem c5_counterexample :
    readLines ["ab"] "zab" = ["zab"] ∧
    specNormalizeLine ["ab"] "zab" = some "z" ∧
    fullParse ["ab"] ⟨none⟩ "ab x" =
      .error ⟨1, "Invalid syntax at line 1. Expected a key-value pair."⟩ :=
  ⟨rfl, rfl, rfl⟩

/-- Witness for C5 at the default marker `";"`: the code and spec
normalizers agree on a concrete line, and a concrete comment/blank-only
input parses to the empty document. -/
theorem c5_line_normalizer_witness :
    codeNormalizeLine [";"] " a ; b" = specNormalizeLine [";"] " a ; b" ∧
    fullParse [";"] ⟨none⟩ "; a\n\n  ; b" = .ok [] := by
  have h := c5_line_normalizer [";"] (by decide) (by
    intro m hm
    have hm2 : m = ";" := by simpa using hm
    exact ⟨';', by rw [hm2]; rfl⟩)
  exact ⟨h.1 " a ; b", h.2 ⟨none⟩ "; a\n\n  ; b" (by decide)⟩

/-- C1 (code bug): assigning `a` three times with raw values `1`, `2`, `x`
does produce a 3-element array in assignment order, but the elements are
*not* the Value Evaluator's coercions `[1, 2, "x"]` the claim (and spec)
require: `#evalOutputObject` maps each promoted-array element through
itself instead of `#eval`, and `for..in` over a raw string walks its
character indices, yielding one index-keyed object per element. -/
theorem c1_duplicate_key_eval :
    fullParse [";"] ⟨none⟩ "a=1\na=2\na=x" =
      .ok [("a", JVal.arr [JVal.obj [("0", JVal.num (.q 1))],
                           JVal.obj [("0", JVal.num (.q 2))],
                           JVal.obj [("0", JVal.str "x")]])] := rfl

/-- C2 (code bug): an array-valued property is *not* emitted as a
`key = value` line with the default textual join.  At top level the
`typeof === 'object'` test routes the array into the sections queue, so
`{tags: ["a","b"]}` stringifies as a `[tags]` pseudo-section with one
`index = element` line per element; inside a section the array fails the
scalar check and raises the TypeError instead. -/
theorem c2_array_stringify :
    stringifyDoc "\n" [("tags", JVal.arr [JVal.str "a", JVal.str "b"])] =
      .ok "\n[tags]\n0 = a\n1 = b\n" ∧
    stringifyDoc "\n" [("sec", JVal.obj [("xs", JVal.arr [JVal.str "a"])])] =
      .error "The value of the property \"xs\" must be a string or a number" :=
  ⟨rfl, rfl⟩

/-- C3 (code bug): a `(kind, required)` schema entry raises the "required"
TypeError for an absent required property and validates a present property
per kind (silently on success) as the claim states — but an absent property
with `required = false` is *not* passed over silently: the kind checks still
run against the missing value and raise (here, the email TypeError). -/
theorem c3_schema_validation :
    validateSchema (JVal.obj []) [("email", .leaf .email false)] =
      .error "The property \"email\" must be a valid email." ∧
    validateSchema (JVal.obj []) [("email", .leaf .email true)] =
      .error "The property \"email\" is required." ∧
    validateSchema (JVal.obj [("email", JVal.str "not-an-email")]) [("email", .leaf .email true)] =
      .error "The property \"email\" must be a valid email." ∧
    validateSchema (JVal.obj [("email", JVal.str "a@b.com")]) [("email", .leaf .email true)] =
      .ok () :=
  ⟨rfl, rfl, rfl, rfl⟩

/-- C4 (code bug): the evaluator applies its tests in the claimed order and
the decimal, boolean, bracket-array, and hexadecimal examples behave as
claimed (`""` → 0, `"0x1F"` → 31) — but `"0b101"` and `"0o17"` evaluate to
0, not 5 and 15: `parseInt` strips the base prefix only for radix 16, so the
radix-2/radix-8 parses stop at the `b`/`o` character after consuming the
leading `0`. -/
theorem c4_value_evaluator :
    evalJS "0b101" = .num (.q 0) ∧
    evalJS "0o17" = .num (.q 0) ∧
    evalJS "0x1F" = .num (.q 31) ∧
    evalJS "" = .num (.q 0) ∧
    evalJS "true" = .bool true ∧
    evalJS "[1, x]" = .arr ["1", "x"] ∧
    evalJS "abc" = .str "abc" ∧
    evalJS "3.14" = .num (.q (157 / 50)) := by
  refine ⟨rfl, rfl, rfl, rfl, rfl, rfl, rfl, ?_⟩
  have h : evalJS "3.14" = .num (.q ((natOfDigits ['3'] : Nat) +
      ((natOfDigits ['1', '4'] : Nat) : ℚ) / 10 ^ (['1', '4'] : List Char).length)) := rfl
  have h3 : natOfDigits ['3'] = 3 := rfl
  have h14 : natOfDigits ['1', '4'] = 14 := rfl
  rw [h, h3, h14]
  norm_num

/-- C7: the input `[db]\nhost=localhost\nport=5432` parses to the tree
`{db: {host: "localhost", port: 5432}}`, and stringifying that tree emits a
blank line before `[db]` followed by `host = localhost` and `port = 5432`,
all joined by the configured line-ending with exactly one trailing
line-ending. -/
theorem c7_section_round_trip :
    fullParse [";"] ⟨none⟩ "[db]\nhost=localhost\nport=5432" =
      .ok [("db", JVal.obj [("host", JVal.str "localhost"),
                            ("port", JVal.num (.q 5432))])] ∧
    stringifyDoc "\n" [("db", JVal.obj [("host", JVal.str "localhost"),
                                        ("port", JVal.num (.q 5432))])] =
      .ok ("\n[db]\nhost = localhost\nport = 5432\n") :=
  ⟨rfl, rfl⟩

/-! ## Lemmas: names with whitespace are never numeric -/

theorem isWs_cases {c : Char} (h : isWsJS c = true) :
    c = ' ' ∨ c = '\t' ∨ c = '\n' ∨ c = '\x0b' ∨ c = '\x0c' ∨ c = '\r' := by
  have h2 : ((((c = ' ' ∨ c = '\t') ∨ c = '\n') ∨ c = '\x0b') ∨ c = '\x0c') ∨ c = '\r' := by
    simpa [isWsJS] using h
  tauto

theorem ws_not_decchar {c : Char} (h1 : isWsJS c = true)
    (h2 : c.isDigit = true ∨ c = '.') : False := by
  rcases isWs_cases h1 with rfl | rfl | rfl | rfl | rfl | rfl <;> revert h2 <;> decide

theorem ws_not_hexchar {c : Char} (h1 : isWsJS c = true)
    (h2 : isHexDigitJS c = true) : False := by
  rcases isWs_cases h1 with rfl | rfl | rfl | rfl | rfl | rfl <;> revert h2 <;> decide

theorem ws_not_binchar {c : Char} (h1 : isWsJS c = true)
    (h2 : (c = '0' || c = '1') = true) : False := by
  rcases isWs_cases h1 with rfl | rfl | rfl | rfl | rfl | rfl <;> revert h2 <;> decide

theorem ws_not_octchar {c : Char} (h1 : isWsJS c = true)
    (h2 : ('0' ≤ c && c ≤ '7') = true) : False := by
  rcases isWs_cases h1 with rfl | rfl | rfl | rfl | rfl | rfl <;> revert h2 <;> decide

theorem decRe_chars {l : List Char} (h : decRe l = true) :
    ∀ c ∈ l, c.isDigit = true ∨ c = '.' := by
  induction l with
  | nil => intro c hc; simp at hc
  | cons c rest ih =>
    intro d hd
    by_cases hc : c.isDigit = true
    · rw [decRe, if_pos hc] at h
      rcases List.mem_cons.mp hd with rfl | hmem
      · exact Or.inl hc
      · exact ih h d hmem
    · rw [decRe, if_neg hc] at h
      rw [Bool.and_eq_true] at h
      obtain ⟨hdot, hall⟩ := h
      rcases List.mem_cons.mp hd with rfl | hmem
      · exact Or.inr (by simpa using hdot)
      · rw [List.all_eq_true] at hall
        exact Or.inl (hall d hmem)

/-- A two-character prefix test decomposes the character list. -/
theorem startsWith_two {s : String} {a b : Char}
    (h : startsWithJS s (String.mk [a, b]) = true) :
    ∃ t, s.data = a :: b :: t := by
  unfold startsWithJS at h
  obtain ⟨t, ht⟩ := List.isPrefixOf_iff_prefix.mp h
  exact ⟨t, ht.symm⟩

theorem evalJS_not_number_of_ws {s : String} (h : hasWs s = true) :
    (evalJS s).isNumber = false := by
  obtain ⟨c, hcmem, hcw⟩ := List.any_eq_true.mp h
  have hdec : decRe s.data = false := by
    cases hb : decRe s.data with
    | false => rfl
    | true => exact absurd (decRe_chars hb c hcmem) (fun h2 => ws_not_decchar hcw h2)
  have hpre : ∀ (b : Char) (p : Char → Bool),
      startsWithJS s (String.mk ['0', b]) = true → (s.data.drop 2).all p = true →
      (isWsJS '0' = false) → (isWsJS b = false) → (p c = true → False) → False := by
    intro b p hsw hall h0 hbws hpc
    obtain ⟨t, ht⟩ := startsWith_two hsw
    rw [ht] at hcmem
    rcases List.mem_cons.mp hcmem with rfl | hmem
    · rw [hcw] at h0; exact Bool.true_eq_false.mp h0
    rcases List.mem_cons.mp hmem with rfl | hmem2
    · rw [hcw] at hbws; exact Bool.true_eq_false.mp hbws
    · have : s.data.drop 2 = t := by rw [ht]; rfl
      rw [this, List.all_eq_true] at hall
      exact hpc (hall c hmem2)
  have hhex : hexRe s = false := by
    cases hb : hexRe s with
    | false => rfl
    | true =>
      exfalso
      rw [hexRe, Bool.and_eq_true] at hb
      exact hpre 'x' isHexDigitJS hb.1 hb.2 (by decide) (by decide)
        (fun h2 => ws_not_hexchar hcw h2)
  have hbin : binRe s = false := by
    cases hb : binRe s with
    | false => rfl
    | true =>
      exfalso
      rw [binRe, Bool.and_eq_true] at hb
      exact hpre 'b' (fun c => c = '0' || c = '1') hb.1 hb.2 (by decide) (by decide)
        (fun h2 => ws_not_binchar hcw h2)
  have hoct : octRe s = false := by
    cases hb : octRe s with
    | false => rfl
    | true =>
      exfalso
      rw [octRe, Bool.and_eq_true] at hb
      exact hpre 'o' (fun c => '0' ≤ c && c ≤ '7') hb.1 hb.2 (by decide) (by decide)
        (fun h2 => ws_not_octchar hcw h2)
  rw [evalJS, hdec]
  simp only [Bool.false_eq_true, if_false, hhex, hbin, hoct]
  by_cases hb1 : (s = "true" || s = "false") = true
  · simp [hb1, TypedValue.isNumber]
  · simp only [hb1, Bool.false_eq_true, if_false]
    by_cases hb2 : (startsWithJS s "[" && endsWithJS s "]") = true
    · simp [hb2, TypedValue.isNumber]
    · simp [hb2, TypedValue.isNumber]

/-- C6: the tri-state `keysWithSpaces` policy.  For a key=value line whose
trimmed key contains whitespace: with the option omitted or set to `error`
the parser raises the SyntaxError; with `ignore` the assignment is silently
dropped (the state, and hence the produced properties, are unchanged); with
`allow` the assignment happens normally.  For a section header whose trimmed
name contains whitespace: omitted/`error` raises; `ignore` drops the header
and leaves the previously active section active; `allow` creates and
activates the section. -/
theorem c6_keys_with_spaces :
    (∀ (row : String) (rest : List String) (pos : Nat) (st : PState),
      isSectionLine row = false → containsChar row '=' = true →
      hasWs (((splitOnJS row "=").map trimJS).getD 0 "") = true →
      parseLines ⟨none⟩ (row :: rest) pos st =
        .error ⟨pos + 1, "Invalid syntax at line " ++ natToStr (pos + 1) ++
          ". Key cannot contain spaces."⟩ ∧
      parseLines ⟨some .error⟩ (row :: rest) pos st =
        .error ⟨pos + 1, "Invalid syntax at line " ++ natToStr (pos + 1) ++
          ". Key cannot contain spaces."⟩ ∧
      parseLines ⟨some .ignore⟩ (row :: rest) pos st =
        parseLines ⟨some .ignore⟩ rest (pos + 1) st ∧
      parseLines ⟨some .allow⟩ (row :: rest) pos st =
        parseLines ⟨some .allow⟩ rest (pos + 1)
          (assignState st (((splitOnJS row "=").map trimJS).getD 0 "")
            (((splitOnJS row "=").map trimJS).getD 1 ""))) ∧
    (∀ (row : String) (rest : List String) (pos : Nat) (st : PState),
      isSectionLine row = true →
      hasWs (trimJS (sectionInner row)) = true →
      parseLines ⟨none⟩ (row :: rest) pos st =
        .error ⟨pos + 1, "Invalid syntax at line " ++ natToStr (pos + 1) ++
          ". Section name cannot contain spaces."⟩ ∧
      parseLines ⟨some .error⟩ (row :: rest) pos st =
        .error ⟨pos + 1, "Invalid syntax at line " ++ natToStr (pos + 1) ++
          ". Section name cannot contain spaces."⟩ ∧
      parseLines ⟨some .ignore⟩ (row :: rest) pos st =
        parseLines ⟨some .ignore⟩ rest (pos + 1) st ∧
      parseLines ⟨some .allow⟩ (row :: rest) pos st =
        parseLines ⟨some .allow⟩ rest (pos + 1)
          ⟨setKey st.results (trimJS (sectionInner row)) (.sec []),
           some (trimJS (sectionInner row))⟩) := by
  constructor
  · intro row rest pos st h1 h2 h3
    have hnum := evalJS_not_number_of_ws h3
    refine ⟨?_, ?_, ?_, ?_⟩ <;>
      simp only [parseLines, h1, h2, hnum, h3, Bool.false_eq_true, if_false, Bool.not_true,
        Bool.true_eq_false, if_true]
  · intro row rest pos st h1 h3
    have hnum := evalJS_not_number_of_ws h3
    refine ⟨?_, ?_, ?_, ?_⟩ <;>
      simp only [parseLines, h1, hnum, h3, Bool.false_eq_true, if_false, Bool.not_true,
        Bool.true_eq_false, if_true]

/-- Witness for C6 at the key line `"my key=1"` and the header `"[my s]"`:
the default raises citing line 1, `ignore` leaves the state unchanged, and
`allow` stores the key. -/
theorem c6_keys_with_spaces_witness :
    (isSectionLine "my key=1" = false ∧ containsChar "my key=1" '=' = true ∧
      hasWs (((splitOnJS "my key=1" "=").map trimJS).getD 0 "") = true ∧
      parseLines ⟨none⟩ ["my key=1"] 0 ⟨[], none⟩ =
        .error ⟨1, "Invalid syntax at line " ++ natToStr 1 ++ ". Key cannot contain spaces."⟩) ∧
    (isSectionLine "[my s]" = true ∧ hasWs (trimJS (sectionInner "[my s]")) = true ∧
      parseLines ⟨some .ignore⟩ ["[my s]"] 0 ⟨[], none⟩ = .ok ⟨[], none⟩) := by
  have h := c6_keys_with_spaces
  refine ⟨⟨by decide, by decide, by decide, ?_⟩, ⟨by decide, by decide, ?_⟩⟩
  · exact (h.1 "my key=1" [] 0 ⟨[], none⟩ (by decide) (by decide) (by decide)).1
  · rw [(h.2 "[my s]" [] 0 ⟨[], none⟩ (by decide) (by decide)).2.2.1]
    rfl

/-- C8: a stored key/value pair comes from splitting the whole line on every
`=`, trimming the pieces, and keeping only the first two tokens; any text
after a second `=` is silently dropped, so `a=b=c` stores key `a` with value
`b`. -/
theorem c8_equals_splitting :
    (∀ (row : String) (rest : List String) (pos : Nat) (st : PState) (opts : ParserOptions),
      isSectionLine row = false → containsChar row '=' = true →
      (evalJS (((splitOnJS row "=").map trimJS).getD 0 "")).isNumber = false →
      hasWs (((splitOnJS row "=").map trimJS).getD 0 "") = false →
      parseLines opts (row :: rest) pos st =
        parseLines opts rest (pos + 1)
          (assignState st (((splitOnJS row "=").map trimJS).getD 0 "")
            (((splitOnJS row "=").map trimJS).getD 1 ""))) ∧
    fullParse [";"] ⟨none⟩ "a=b=c" = .ok [("a", JVal.str "b")] := by
  constructor
  · intro row rest pos st opts h1 h2 h3 h4
    simp only [parseLines, h1, h2, h3, h4, Bool.false_eq_true, if_false, Bool.not_true,
      Bool.true_eq_false, if_true, Bool.not_false]
  · rfl

/-- Witness for C8 at the line `"a=b=c"`. -/
theorem c8_equals_splitting_witness :
    (isSectionLine "a=b=c" = false ∧ containsChar "a=b=c" '=' = true ∧
      (evalJS (((splitOnJS "a=b=c" "=").map trimJS).getD 0 "")).isNumber = false ∧
      hasWs (((splitOnJS "a=b=c" "=").map trimJS).getD 0 "") = false) ∧
    parseLines ⟨none⟩ ["a=b=c"] 0 ⟨[], none⟩ =
      parseLines ⟨none⟩ [] (0 + 1)
        (assignState ⟨[], none⟩ (((splitOnJS "a=b=c" "=").map trimJS).getD 0 "")
          (((splitOnJS "a=b=c" "=").map trimJS).getD 1 "")) :=
  ⟨⟨by decide, by decide, by decide, by decide⟩,
    c8_equals_splitting.1 "a=b=c" [] 0 ⟨[], none⟩ ⟨none⟩
      (by decide) (by decide) (by decide) (by decide)⟩

/-- C10: a processed section header binds the trimmed name to a fresh empty
mapping (replacing whatever the name held, at its original position) and
makes it the active section; concretely an earlier scalar `a=1` is lost when
`[a]` is processed, and re-opening `[s]` discards the first section's
contents. -/
theorem c10_section_rebinding :
    (∀ (row : String) (rest : List String) (pos : Nat) (st : PState) (opts : ParserOptions),
      isSectionLine row = true →
      (evalJS (trimJS (sectionInner row))).isNumber = false →
      (hasWs (trimJS (sectionInner row)) = false ∨ opts.keysWithSpaces = some .allow) →
      parseLines opts (row :: rest) pos st =
        parseLines opts rest (pos + 1)
          ⟨setKey st.results (trimJS (sectionInner row)) (.sec []),
           some (trimJS (sectionInner row))⟩) ∧
    fullParse [";"] ⟨none⟩ "a=1\n[a]\nx=2" =
      .ok [("a", JVal.obj [("x", JVal.num (.q 2))])] ∧
    fullParse [";"] ⟨none⟩ "[s]\nk=1\n[s]\nj=2" =
      .ok [("s", JVal.obj [("j", JVal.num (.q 2))])] := by
  refine ⟨?_, rfl, rfl⟩
  intro row rest pos st opts h1 h2 h3
  rcases h3 with hws | hallow
  · simp only [parseLines, h1, h2, hws, Bool.false_eq_true, if_false, Bool.not_true,
      Bool.true_eq_false, if_true]
  · cases opts with
    | mk ksw =>
      simp only at hallow
      subst hallow
      by_cases hws : hasWs (trimJS (sectionInner row)) = true <;>
        simp only [parseLines, h1, h2, hws, Bool.false_eq_true, if_false, Bool.not_true,
          Bool.true_eq_false, if_true]

/-- Witness for C10 at the header `"[t]"` over a state holding a scalar
under `t`. -/
theorem c10_section_rebinding_witness :
    (isSectionLine "[t]" = true ∧ (evalJS (trimJS (sectionInner "[t]"))).isNumber = false ∧
      hasWs (trimJS (sectionInner "[t]")) = false) ∧
    parseLines ⟨none⟩ ["[t]"] 0 ⟨[("t", Raw.str "1")], none⟩ =
      parseLines ⟨none⟩ [] (0 + 1)
        ⟨setKey [("t", Raw.str "1")] (trimJS (sectionInner "[t]")) (.sec []),
         some (trimJS (sectionInner "[t]"))⟩ :=
  ⟨⟨by decide, by decide, by decide⟩,
    c10_section_rebinding.1 "[t]" [] 0 ⟨[("t", Raw.str "1")], none⟩ ⟨none⟩
      (by decide) (by decide) (Or.inl (by decide))⟩

/-- Every error `eachRow` produces carries the 1-based position of the
offending line *within the normalized line list* (starting at `pos`), that
line satisfies `badLine`, and the message embeds that same number. -/
theorem parseLines_error_spec (opts : ParserOptions) :
    ∀ (lines : List String) (pos : Nat) (st : PState) (e : ParseError),
      parseLines opts lines pos st = .error e →
      ∃ j, j < lines.length ∧ e.lineNo = pos + j + 1 ∧
        badLine opts (lines.getD j "") = true ∧
        ∃ t, e.msg = "Invalid syntax at line " ++ natToStr (pos + j + 1) ++ t := by
  intro lines
  induction lines with
  | nil =>
    intro pos st e h
    simp [parseLines] at h
  | cons row rest ih =>
    intro pos st e h
    have hrec : ∀ (st2 : PState), parseLines opts rest (pos + 1) st2 = .error e →
        ∃ j, j < (row :: rest).length ∧ e.lineNo = pos + j + 1 ∧
          badLine opts ((row :: rest).getD j "") = true ∧
          ∃ t, e.msg = "Invalid syntax at line " ++ natToStr (pos + j + 1) ++ t := by
      intro st2 h2
      obtain ⟨j, hj1, hj2, hj3, t, ht⟩ := ih (pos + 1) st2 e h2
      have harith : pos + 1 + j + 1 = pos + (j + 1) + 1 := by omega
      refine ⟨j + 1, ?_, ?_, ?_, t, ?_⟩
      · simp only [List.length_cons]; omega
      · omega
      · simpa using hj3
      · rw [← harith]; exact ht
    by_cases h1 : isSectionLine row = true
    · by_cases h2 : (evalJS (trimJS (sectionInner row))).isNumber = true
      · simp only [parseLines, h1, h2, if_true] at h
        simp only [Except.error.injEq] at h
        subst h
        exact ⟨0, by simp, rfl, by simp [badLine, h1, h2],
          ". Section name cannot be a number.", rfl⟩
      · by_cases h3 : hasWs (trimJS (sectionInner row)) = true
        · rcases hk : opts.keysWithSpaces with _ | k
          · simp only [parseLines, h1, h2, h3, hk, Bool.false_eq_true, if_false, if_true] at h
            simp only [Except.error.injEq] at h
            subst h
            exact ⟨0, by simp, rfl, by simp [badLine, h1, h2, h3, hk, policyErrors],
              ". Section name cannot contain spaces.", rfl⟩
          · cases k with
            | allow =>
              simp only [parseLines, h1, h2, h3, hk, Bool.false_eq_true, if_false, if_true] at h
              exact hrec _ h
            | ignore =>
              simp only [parseLines, h1, h2, h3, hk, Bool.false_eq_true, if_false, if_true] at h
              exact hrec _ h
            | error =>
              simp only [parseLines, h1, h2, h3, hk, Bool.false_eq_true, if_false, if_true] at h
              simp only [Except.error.injEq] at h
              subst h
              exact ⟨0, by simp, rfl, by simp [badLine, h1, h2, h3, hk, policyErrors],
                ". Section name cannot contain spaces.", rfl⟩
        · simp only [parseLines, h1, h2, h3, Bool.false_eq_true, if_false, if_true] at h
          exact hrec _ h
    · by_cases h2 : containsChar row '=' = true
      · by_cases h3 : (evalJS (((splitOnJS row "=").map trimJS).getD 0 "")).isNumber = true
        · simp only [parseLines, h1, h2, h3, Bool.false_eq_true, if_false, Bool.not_true,
            Bool.true_eq_false, if_true] at h
          simp only [Except.error.injEq] at h
          subst h
          refine ⟨0, by simp, rfl, ?_, ". Key cannot be a number.", rfl⟩
          simp only [List.getD_cons_zero]
          simp [badLine, h1, h2]
          exact Or.inl (by simpa using h3)
        · by_cases h4 : hasWs (((splitOnJS row "=").map trimJS).getD 0 "") = true
          · rcases hk : opts.keysWithSpaces with _ | k
            · simp only [parseLines, h1, h2, h3, h4, hk, Bool.false_eq_true, if_false,
                Bool.not_true, Bool.true_eq_false, if_true] at h
              simp only [Except.error.injEq] at h
              subst h
              refine ⟨0, by simp, rfl, ?_, ". Key cannot contain spaces.", rfl⟩
              simp only [List.getD_cons_zero]
              simp [badLine, h1, h2]
              exact Or.inr ⟨by simpa using h4, by simp [hk, policyErrors]⟩
            · cases k with
              | allow =>
                simp only [parseLines, h1, h2, h3, h4, hk, Bool.false_eq_true, if_false,
                  Bool.not_true, Bool.true_eq_false, if_true] at h
                exact hrec _ h
              | ignore =>
                simp only [parseLines, h1, h2, h3, h4, hk, Bool.false_eq_true, if_false,
                  Bool.not_true, Bool.true_eq_false, if_true] at h
                exact hrec _ h
              | error =>
                simp only [parseLines, h1, h2, h3, h4, hk, Bool.false_eq_true, if_false,
                  Bool.not_true, Bool.true_eq_false, if_true] at h
                simp only [Except.error.injEq] at h
                subst h
                refine ⟨0, by simp, rfl, ?_, ". Key cannot contain spaces.", rfl⟩
                simp only [List.getD_cons_zero]
                simp [badLine, h1, h2]
                exact Or.inr ⟨by simpa using h4, by simp [hk, policyErrors]⟩
          · simp only [parseLines, h1, h2, h3, h4, Bool.false_eq_true, if_false, Bool.not_true,
              Bool.true_eq_false, if_true] at h
            exact hrec _ h
      · simp only [parseLines, h1, h2, Bool.false_eq_true, if_false, Bool.not_false, if_true] at h
        simp only [Except.error.injEq] at h
        subst h
        exact ⟨0, by simp, rfl, by simp [badLine, h1, h2],
          ". Expected a key-value pair.", rfl⟩

/-- C9 (amended): every SyntaxError raised by parse carries — in its line
field and interpolated into its message — the 1-based position of the
offending line within the *normalized* line sequence (after comment
stripping and blank removal), and that line is one the parser rejects.
This number equals the input line number only when normalization drops no
earlier line; the original claim's reading (position in the raw input) is
refuted by the counterexample. -/
theorem c9_syntax_error_line_numbers (markers : List String) (opts : ParserOptions)
    (input : String) (e : ParseError)
    (h : fullParse markers opts input = .error e) :
    ∃ j, j < (readLines markers input).length ∧ e.lineNo = j + 1 ∧
      badLine opts ((readLines markers input).getD j "") = true ∧
      ∃ t, e.msg = "Invalid syntax at line " ++ natToStr (j + 1) ++ t := by
  have hp : parseLines opts (readLines markers input) 0 ⟨[], none⟩ = .error e := by
    unfold fullParse at h
    cases hres : parseLines opts (readLines markers input) 0 ⟨[], none⟩ with
    | ok st =>
      rw [hres] at h
      simp [Except.map] at h
    | error e2 =>
      rw [hres] at h
      simp only [Except.map, Except.error.injEq] at h
      rw [h]
  obtain ⟨j, h1, h2, h3, t, ht⟩ := parseLines_error_spec opts _ 0 _ e hp
  refine ⟨j, h1, by omega, h3, t, ?_⟩
  have : (0 : Nat) + j + 1 = j + 1 := by omega
  rw [this] at ht
  exact ht

/-- C9 counterexample: in `";c\nx"` the offending line `"x"` is the second
line of the input, yet the raised SyntaxError cites line 1 — its position in
the normalized line list, the comment line `";c"` having been stripped. -/
theorem c9_counterexample :
    fullParse [";"] ⟨none⟩ ";c\nx" =
      .error ⟨1, "Invalid syntax at line 1. Expected a key-value pair."⟩ ∧
    splitLines ";c\nx" = [";c", "x"] ∧
    readLines [";"] ";c\nx" = ["x"] :=
  ⟨rfl, rfl, rfl⟩

/-- Witness for C9 at the input `";c\nx"`. -/
theorem c9_syntax_error_line_numbers_witness :
    ∃ j, j < (readLines [";"] ";c\nx").length ∧
      (ParseError.mk 1 "Invalid syntax at line 1. Expected a key-value pair.").lineNo = j + 1 ∧
      badLine ⟨none⟩ ((readLines [";"] ";c\nx").getD j "") = true ∧
      ∃ t, (ParseError.mk 1 "Invalid syntax at line 1. Expected a key-value pair.").msg =
        "Invalid syntax at line " ++ natToStr (j + 1) ++ t :=
  c9_syntax_error_line_numbers [";"] ⟨none⟩ ";c\nx"
    ⟨1, "Invalid syntax at line 1. Expected a key-value pair."⟩ rfl
